import Mathlib

/-!
Verification of the quote-builder core logic (quote_app.py).

The two logic functions of the source, clean_standard_options and
group_optional_options, together with the discount resolution and the
final-price accumulation of the page script, are embedded shallowly:

* Python strings are modelled as `List Char` (ASCII fragment; every string
  occurring in the catalog data and in the claims is ASCII).
* Python numbers (prices, discounts) are modelled as `ℚ`.
* `re.sub(r'\bnan\b', '', text, flags)` is modelled by `stripNanAux`, a
  left-to-right scan replacing each word-bounded occurrence of the pattern
  and continuing after the match, exactly as the regex engine does; the
  `ci` flag models `re.IGNORECASE`.
* `re.sub(r'\s+', ' ', text)` is modelled by `collapseWs`.
* `str.strip()` is modelled by `pyStrip`, `str.split()` by `pyWords`,
  `str.lower()` by `pyLower`, and the substring test `a in b` by
  `containsSub`.
* the in-place mutation `opt['description'] = ...` performed by
  group_optional_options on every input item is modelled by returning,
  next to the grouping result, the post-call state of the input list
  (`postState`).
-/

namespace QuoteTool

/-- Whitespace characters of the regex class \s and of str.strip
(ASCII fragment of the Python semantics). -/
def isSpace (c : Char) : Bool :=
  c = ' ' || c = '\t' || c = '\n' || c = '\r' || c = '\x0b' || c = '\x0c'

/-- Word characters for the regex word boundary \b (ASCII fragment of \w). -/
def isWordChar (c : Char) : Bool := c.isAlphanum || c = '_'

/-- The char matches the letter n of the pattern nan; with `ci` set the
match is case-insensitive, as under re.IGNORECASE. -/
def isN (ci : Bool) (c : Char) : Bool := c = 'n' || (ci && c = 'N')

/-- The char matches the letter a of the pattern nan. -/
def isA (ci : Bool) (c : Char) : Bool := c = 'a' || (ci && c = 'A')

/-- Word boundary before the current scan position; `prev` is the char
just before that position in the original string (`none` at the start). -/
def nanBdryB : Option Char → Bool
  | none => true
  | some c => !isWordChar c

/-- Word boundary after a candidate match, looking at the rest of the
string (end of string or a non-word char). -/
def nanBdryA : List Char → Bool
  | [] => true
  | c :: _ => !isWordChar c

/-- Left-to-right scan of re.sub for the pattern \bnan\b with replacement
by the empty string: at each position, if the next three chars spell nan
(case-insensitively when `ci`) between word boundaries, they are removed
and the scan resumes after them; otherwise the char is kept. -/
def stripNanAux (ci : Bool) : Option Char → List Char → List Char
  | _, [] => []
  | _, [c] => [c]
  | _, [c, d] => [c, d]
  | prev, c1 :: c2 :: c3 :: rest =>
    if isN ci c1 && isA ci c2 && isN ci c3 && nanBdryB prev && nanBdryA rest then
      stripNanAux ci (some c3) rest
    else
      c1 :: stripNanAux ci (some c1) (c2 :: c3 :: rest)

/-- There is a match of \bnan\b somewhere in the list, scanning with the
same boundary bookkeeping as `stripNanAux`. -/
def hasNanAux (ci : Bool) : Option Char → List Char → Bool
  | prev, c1 :: c2 :: c3 :: rest =>
    (isN ci c1 && isA ci c2 && isN ci c3 && nanBdryB prev && nanBdryA rest)
    || hasNanAux ci (some c1) (c2 :: c3 :: rest)
  | _, _ => false

/-- Scan of re.sub for the pattern nan WITHOUT word boundaries (used to
state claim C1 the way it is written). -/
def stripNanAnywhere (ci : Bool) : List Char → List Char
  | [] => []
  | [c] => [c]
  | [c, d] => [c, d]
  | c1 :: c2 :: c3 :: rest =>
    if isN ci c1 && isA ci c2 && isN ci c3 then
      stripNanAnywhere ci rest
    else
      c1 :: stripNanAnywhere ci (c2 :: c3 :: rest)

/-- Scan of re.sub(r'\s+', ' ', text): the flag records whether the
previous char was whitespace (in which case further whitespace is
swallowed by the same replacement). -/
def collapseWsAux (prevSp : Bool) : List Char → List Char
  | [] => []
  | c :: rest =>
    if isSpace c then
      if prevSp then collapseWsAux true rest
      else ' ' :: collapseWsAux true rest
    else c :: collapseWsAux false rest

/-- re.sub(r'\s+', ' ', text): every maximal run of whitespace becomes a
single space. -/
def collapseWs (l : List Char) : List Char := collapseWsAux false l

/-- Remove trailing whitespace (the right half of str.strip()). -/
def dropTrailingWs : List Char → List Char
  | [] => []
  | c :: rest =>
    let r := dropTrailingWs rest
    if r.isEmpty && isSpace c then [] else c :: r

/-- str.strip(): remove leading and trailing whitespace. -/
def pyStrip (l : List Char) : List Char := dropTrailingWs (l.dropWhile isSpace)

/-- str.lower() on the ASCII fragment. -/
def lowerCh (c : Char) : Char :=
  if 'A' ≤ c ∧ c ≤ 'Z' then Char.ofNat (c.toNat + 32) else c

/-- str.lower() applied to a whole string. -/
def pyLower (l : List Char) : List Char := l.map lowerCh

/-- The first list is a prefix of the second (matching chars one by one). -/
def leadsWith : List Char → List Char → Bool
  | [], _ => true
  | _ :: _, [] => false
  | a :: as, b :: bs => a = b && leadsWith as bs

/-- Python substring test: needle in hay. -/
def containsSub (needle : List Char) : List Char → Bool
  | [] => needle.isEmpty
  | c :: rest => leadsWith needle (c :: rest) || containsSub needle rest

/-- str.split() with no argument: split on whitespace runs, dropping empty
pieces; the accumulator holds the chars of the current word, reversed. -/
def pyWordsAux (acc : List Char) : List Char → List (List Char)
  | [] => if acc.isEmpty then [] else [acc.reverse]
  | c :: rest =>
    if isSpace c then
      if acc.isEmpty then pyWordsAux [] rest
      else acc.reverse :: pyWordsAux [] rest
    else pyWordsAux (c :: acc) rest

/-- str.split() with no argument. -/
def pyWords (l : List Char) : List (List Char) := pyWordsAux [] l

/-- The cleaning applied by clean_standard_options to one entry
(quote_app.py lines 18-20): re.sub(r'\bnan\b', '', text, flags=IGNORECASE),
then re.sub(r'\s+', ' ', text).strip(). -/
def cleanStdText (s : List Char) : List Char :=
  pyStrip (collapseWs (stripNanAux true none s))

/-- clean_standard_options (quote_app.py lines 13-23): skip falsy entries,
clean the text, keep the non-empty results in order. -/
def clean_standard_options : List (List Char) → List (List Char)
  | [] => []
  | s :: rest =>
    if s.isEmpty then clean_standard_options rest
    else if (cleanStdText s).isEmpty then clean_standard_options rest
    else cleanStdText s :: clean_standard_options rest

/-- An optional line item of the catalog: description and price. -/
structure Item where
  description : List Char
  price : ℚ
deriving DecidableEq

/-- The description cleaning of group_optional_options (quote_app.py
line 31): re.sub(r'\bnan\b', '', str(...)) with NO flags (case-sensitive,
word-bounded), followed by .strip(). -/
def cleanDesc (d : List Char) : List Char := pyStrip (stripNanAux false none d)

/-- The in-place update performed on every item by line 31 of the source:
the description field is overwritten with its cleaned value. -/
def mutateItem (it : Item) : Item := Item.mk (cleanDesc it.description) it.price

/-- The cleaning loop of group_optional_options (lines 30-34). Python
mutates each dict and appends the kept ones to cleaned_options; the value
semantics of that is returned as a pair: the post-call state of the input
list, and cleaned_options. -/
def cleanLoop : List Item → List Item × List Item
  | [] => ([], [])
  | it :: rest =>
    let it2 := mutateItem it
    let p := cleanLoop rest
    (it2 :: p.1, if it2.description.isEmpty then p.2 else it2 :: p.2)

/-- State of the input list of group_optional_options after the call. -/
def postState (l : List Item) : List Item := (cleanLoop l).1

/-- The cleaned_options list built by lines 30-34. -/
def cleanPass (l : List Item) : List Item := (cleanLoop l).2

/-- The base-price detection condition of lines 37-41, evaluated on the
first cleaned item: "base price" in the lowercased description, or "model"
in it, or price > 100000 with fewer than 3 whitespace-separated words. -/
def baseCond (it : Item) : Bool :=
  containsSub ("base price".data) (pyLower it.description)
  || containsSub ("model".data) (pyLower it.description)
  || (decide ((100000 : ℚ) < it.price) && decide ((pyWords it.description).length < 3))

/-- The seven fixed category buckets of lines 47-60. -/
inductive Cat
  | spindle
  | probing
  | coolant
  | tablePallet
  | toolStorage
  | control
  | other
deriving DecidableEq

/-- The if/elif chain of lines 46-60 choosing the bucket of one item:
case-insensitive substring tests on the description, first match wins. -/
def pickCat (it : Item) : Cat :=
  let d := pyLower it.description
  if containsSub ("spindle".data) d then Cat.spindle
  else if containsSub ("probe".data) d || containsSub ("renishaw".data) d then Cat.probing
  else if containsSub ("coolant".data) d then Cat.coolant
  else if containsSub ("table".data) d || containsSub ("pallet".data) d then Cat.tablePallet
  else if containsSub ("tool".data) d
          && (containsSub ("storage".data) d || containsSub ("magazine".data) d
              || containsSub ("changer".data) d) then Cat.toolStorage
  else if containsSub ("control".data) d then Cat.control
  else Cat.other

/-- The categories dict of group_optional_options, one ordered list per
fixed category name. -/
structure Buckets where
  spindle : List Item
  probing : List Item
  coolant : List Item
  tablePallet : List Item
  toolStorage : List Item
  control : List Item
  other : List Item
deriving DecidableEq

/-- The empty defaultdict of line 27. -/
def emptyBuckets : Buckets := Buckets.mk [] [] [] [] [] [] []

/-- Put one item at the front of its bucket (the loop appends at the end,
so the recursion over the list conses at the front to keep the order). -/
def consB : Cat → Item → Buckets → Buckets
  | Cat.spindle, it, b =>
    Buckets.mk (it :: b.spindle) b.probing b.coolant b.tablePallet b.toolStorage b.control b.other
  | Cat.probing, it, b =>
    Buckets.mk b.spindle (it :: b.probing) b.coolant b.tablePallet b.toolStorage b.control b.other
  | Cat.coolant, it, b =>
    Buckets.mk b.spindle b.probing (it :: b.coolant) b.tablePallet b.toolStorage b.control b.other
  | Cat.tablePallet, it, b =>
    Buckets.mk b.spindle b.probing b.coolant (it :: b.tablePallet) b.toolStorage b.control b.other
  | Cat.toolStorage, it, b =>
    Buckets.mk b.spindle b.probing b.coolant b.tablePallet (it :: b.toolStorage) b.control b.other
  | Cat.control, it, b =>
    Buckets.mk b.spindle b.probing b.coolant b.tablePallet b.toolStorage (it :: b.control) b.other
  | Cat.other, it, b =>
    Buckets.mk b.spindle b.probing b.coolant b.tablePallet b.toolStorage b.control (it :: b.other)

/-- The categorization loop of lines 45-60. -/
def categorize : List Item → Buckets
  | [] => emptyBuckets
  | it :: rest => consB (pickCat it) it (categorize rest)

/-- group_optional_options (quote_app.py lines 26-62): clean, extract the
base price from the first cleaned item if it qualifies, categorize the
rest; returns the buckets and the extracted base price (0 when none). -/
def group_optional_options (l : List Item) : Buckets × ℚ :=
  match cleanPass l with
  | [] => (emptyBuckets, 0)
  | first :: rest =>
    if baseCond first then (categorize rest, first.price)
    else (categorize (first :: rest), 0)

/-- Whether the base-price branch of lines 37-43 fires on the input. -/
def baseExtracted (l : List Item) : Bool :=
  match cleanPass l with
  | [] => false
  | first :: _ => baseCond first

/-- The cleaned items that remain for categorization after the possible
base-price extraction. -/
def remainingAfterBase (l : List Item) : List Item :=
  match cleanPass l with
  | [] => []
  | first :: rest => if baseCond first then rest else first :: rest

/-- The discount resolution of quote_app.py lines 124-131. -/
def resolveDiscount (basePrice desiredPrice percentDiscount flatDiscount catalogDiscount : ℚ) : ℚ :=
  if 0 < desiredPrice then max 0 (basePrice - desiredPrice)
  else if 0 < percentDiscount then percentDiscount / 100 * basePrice
  else if 0 < flatDiscount then flatDiscount
  else catalogDiscount

/-- The final quoted price: custom_price = base_price - discount (line 133)
followed by one += per selected optional item (line 149). -/
def custom_price (basePrice discount : ℚ) (selected : List Item) : ℚ :=
  selected.foldl (fun acc it => acc + it.price) (basePrice - discount)

/-- Line 114 of the source: the extracted base price is used only when
positive, otherwise the catalog base price. -/
def basePriceSelect (extracted catalog : ℚ) : ℚ :=
  if 0 < extracted then extracted else catalog

/-- All items of all buckets, in bucket order. -/
def bucketsList (b : Buckets) : List Item :=
  b.spindle ++ b.probing ++ b.coolant ++ b.tablePallet ++ b.toolStorage ++ b.control ++ b.other

/-- Sum of the bucket sizes. -/
def bucketsSize (b : Buckets) : Nat :=
  b.spindle.length + b.probing.length + b.coolant.length + b.tablePallet.length
    + b.toolStorage.length + b.control.length + b.other.length

/-- The cleaning step exactly as claim C1 words it: strip the token nan
case-insensitively and anywhere (not word-bounded), trim, drop the items
whose description becomes empty, keep the order. -/
def claimC1Clean (l : List Item) : List Item :=
  (l.map (fun it => Item.mk (pyStrip (stripNanAnywhere true it.description)) it.price)).filter
    (fun it => !it.description.isEmpty)

/-- The cleaning step as amended: strip the token nan case-sensitively and
only at word boundaries, trim, drop the items whose description becomes
empty, keep the order. -/
def amendedC1Clean (l : List Item) : List Item :=
  (l.map (fun it => Item.mk (pyStrip (stripNanAux false none it.description)) it.price)).filter
    (fun it => !it.description.isEmpty)

/-- The base-price detection condition as claim C4 words it. -/
def specC4Cond (it : Item) : Prop :=
  containsSub ("base price".data) (pyLower it.description) = true
  ∨ containsSub ("model".data) (pyLower it.description) = true
  ∨ ((100000 : ℚ) < it.price ∧ (pyWords it.description).length < 3)

instance (it : Item) : Decidable (specC4Cond it) := by
  unfold specC4Cond; infer_instance

/-- The category of one item as claim C5 words it: the fixed priority
order of case-insensitive substring tests, first match wins. -/
def specPickCat (it : Item) : Cat :=
  let d := pyLower it.description
  if containsSub ("spindle".data) d then Cat.spindle
  else if containsSub ("probe".data) d || containsSub ("renishaw".data) d then Cat.probing
  else if containsSub ("coolant".data) d then Cat.coolant
  else if containsSub ("table".data) d || containsSub ("pallet".data) d then Cat.tablePallet
  else if containsSub ("tool".data) d
          && (containsSub ("storage".data) d || containsSub ("magazine".data) d
              || containsSub ("changer".data) d) then Cat.toolStorage
  else if containsSub ("control".data) d then Cat.control
  else Cat.other

/-- Grouping as claim C5 words it: every item lands in exactly the bucket
selected by `specPickCat`. -/
def specCategorize (l : List Item) : Buckets :=
  Buckets.mk
    (l.filter (fun it => specPickCat it == Cat.spindle))
    (l.filter (fun it => specPickCat it == Cat.probing))
    (l.filter (fun it => specPickCat it == Cat.coolant))
    (l.filter (fun it => specPickCat it == Cat.tablePallet))
    (l.filter (fun it => specPickCat it == Cat.toolStorage))
    (l.filter (fun it => specPickCat it == Cat.control))
    (l.filter (fun it => specPickCat it == Cat.other))

/-- Word-boundary status at the left end of a decomposition: the last char
of `u` when there is one, otherwise the char `p` preceding the whole
string. -/
def bdryL (p : Option Char) (u : List Char) : Bool :=
  match u.getLast? with
  | none => nanBdryB p
  | some d => !isWordChar d

/-- No two adjacent whitespace chars. -/
def noDbl : List Char → Bool
  | c :: d :: r => (!(isSpace c && isSpace d)) && noDbl (d :: r)
  | _ => true

/-- Every whitespace char of the list is a plain space. -/
def allBlank (l : List Char) : Bool := l.all (fun c => !isSpace c || c = ' ')

/-! Helper lemmas about the embedded operations. -/

theorem cleanLoop_fst (l : List Item) : (cleanLoop l).1 = l.map mutateItem := by
  induction l with
  | nil => rfl
  | cons it rest ih => simp [cleanLoop, ih]

theorem cleanLoop_snd (l : List Item) :
    (cleanLoop l).2 = (l.map mutateItem).filter (fun it => !it.description.isEmpty) := by
  induction l with
  | nil => rfl
  | cons it rest ih =>
    simp only [cleanLoop, List.map_cons, List.filter_cons]
    by_cases h : (mutateItem it).description.isEmpty <;> simp [h, ih]

theorem pickCat_eq_spec (it : Item) : pickCat it = specPickCat it := rfl

theorem categorize_eq_spec (m : List Item) : categorize m = specCategorize m := by
  induction m with
  | nil => rfl
  | cons it rest ih =>
    have hfil : ∀ c : Cat,
        (it :: rest).filter (fun x => specPickCat x == c)
          = if specPickCat it == c then it :: rest.filter (fun x => specPickCat x == c)
            else rest.filter (fun x => specPickCat x == c) := by
      intro c; simp [List.filter_cons]
    show consB (pickCat it) it (categorize rest) = specCategorize (it :: rest)
    rw [ih, pickCat_eq_spec]
    cases h : specPickCat it <;>
      simp [specCategorize, consB, hfil, h]

theorem bucketsList_consB (c : Cat) (it : Item) (b : Buckets) :
    (bucketsList (consB c it b)).Perm (it :: bucketsList b) := by
  rw [← Multiset.coe_eq_coe]
  cases c <;>
    simp [consB, bucketsList, ← Multiset.coe_eq_coe, ← Multiset.cons_coe,
      ← Multiset.coe_add]

theorem categorize_perm (m : List Item) : (bucketsList (categorize m)).Perm m := by
  induction m with
  | nil => rfl
  | cons it rest ih =>
    exact (bucketsList_consB (pickCat it) it (categorize rest)).trans (ih.cons it)

theorem bucketsSize_eq (b : Buckets) : bucketsSize b = (bucketsList b).length := by
  simp [bucketsSize, bucketsList]
  omega

theorem baseCond_iff (it : Item) : baseCond it = true ↔ specC4Cond it := by
  simp [baseCond, specC4Cond, Bool.or_eq_true, Bool.and_eq_true, decide_eq_true_iff,
    or_assoc]

theorem group_eq_of_cons (l : List Item) (first : Item) (rest : List Item)
    (h : cleanPass l = first :: rest) :
    group_optional_options l
      = if baseCond first then (categorize rest, first.price)
        else (categorize (first :: rest), 0) := by
  simp only [group_optional_options, h]

theorem group_eq_of_nil (l : List Item) (h : cleanPass l = []) :
    group_optional_options l = (emptyBuckets, 0) := by
  simp only [group_optional_options, h]

theorem remaining_eq_of_cons (l : List Item) (first : Item) (rest : List Item)
    (h : cleanPass l = first :: rest) :
    remainingAfterBase l = if baseCond first then rest else first :: rest := by
  simp only [remainingAfterBase, h]

theorem baseExtracted_eq_of_cons (l : List Item) (first : Item) (rest : List Item)
    (h : cleanPass l = first :: rest) : baseExtracted l = baseCond first := by
  simp only [baseExtracted, h]

theorem foldl_add_price (sel : List Item) :
    ∀ init : ℚ, sel.foldl (fun acc it => acc + it.price) init
      = init + (sel.map Item.price).sum := by
  induction sel with
  | nil => intro init; simp
  | cons it rest ih => intro init; simp [List.foldl_cons, ih, add_assoc]

/-! Lemmas about the word-bounded nan removal, leading to idempotence of
the standard-options normalizer (claim C8). -/

theorem wc_of_isN (ci : Bool) (c : Char) (h : isN ci c = true) : isWordChar c = true := by
  simp [isN] at h
  rcases h with h | ⟨-, h⟩ <;> subst h <;> decide

theorem wc_of_isA (ci : Bool) (c : Char) (h : isA ci c = true) : isWordChar c = true := by
  simp [isA] at h
  rcases h with h | ⟨-, h⟩ <;> subst h <;> decide

theorem not_isN_of_wc_false (ci : Bool) (c : Char) (h : isWordChar c = false) :
    isN ci c = false := by
  cases hn : isN ci c with
  | false => rfl
  | true => exact absurd (wc_of_isN ci c hn) (by simp [h])

theorem wc_false_of_sp (c : Char) (h : isSpace c = true) : isWordChar c = false := by
  simp only [isSpace, Bool.or_eq_true, decide_eq_true_iff, or_assoc] at h
  rcases h with h | h | h | h | h | h <;> subst h <;> decide

theorem sp_false_of_wc (c : Char) (h : isWordChar c = true) : isSpace c = false := by
  cases hs : isSpace c with
  | false => rfl
  | true => exact absurd h (by simp [wc_false_of_sp c hs])

theorem stripNan_head_nb (ci : Bool) (q : Option Char) (l : List Char)
    (hq : nanBdryB q = false) : (stripNanAux ci q l).head? = l.head? := by
  rcases l with _ | ⟨c1, _ | ⟨c2, _ | ⟨c3, rest⟩⟩⟩
  · rfl
  · rfl
  · rfl
  · simp [stripNanAux, hq]

theorem stripNan_head_isN (ci : Bool) (q : Option Char) (d : Char) (t : List Char)
    (hd : isN ci d = false) : (stripNanAux ci q (d :: t)).head? = some d := by
  rcases t with _ | ⟨e, _ | ⟨f, r⟩⟩
  · rfl
  · rfl
  · simp [stripNanAux, hd]

theorem stripNan_cons_of_isN_false (ci : Bool) (q : Option Char) (d : Char) (t : List Char)
    (hd : isN ci d = false) :
    ∃ t', stripNanAux ci q (d :: t) = d :: t' := by
  have hh := stripNan_head_isN ci q d t hd
  rcases hS : stripNanAux ci q (d :: t) with _ | ⟨x, xs⟩
  · rw [hS] at hh; simp at hh
  · rw [hS] at hh
    simp only [List.head?_cons, Option.some.injEq] at hh
    exact ⟨xs, by rw [hh]⟩

theorem hasNan_prevIrrel (ci : Bool) (p q : Option Char) (d : Char) (t : List Char)
    (hd : isN ci d = false) :
    hasNanAux ci p (d :: t) = hasNanAux ci q (d :: t) := by
  rcases t with _ | ⟨e, _ | ⟨f, r⟩⟩
  · rfl
  · rfl
  · simp [hasNanAux, hd]

theorem stripNan_noNan_bounded (ci : Bool) :
    ∀ n l p, l.length ≤ n → hasNanAux ci p (stripNanAux ci p l) = false := by
  intro n
  induction n with
  | zero =>
    intro l p h
    have : l = [] := List.length_eq_zero.mp (Nat.le_zero.mp h)
    subst this; rfl
  | succ n ih =>
    intro l p h
    rcases l with _ | ⟨c1, _ | ⟨c2, _ | ⟨c3, rest⟩⟩⟩
    · rfl
    · rfl
    · rfl
    · by_cases hm : (isN ci c1 && isA ci c2 && isN ci c3 && nanBdryB p && nanBdryA rest) = true
      · have hstep : stripNanAux ci p (c1 :: c2 :: c3 :: rest)
            = stripNanAux ci (some c3) rest := by
          simp [stripNanAux, hm]
        rw [hstep]
        have hlen : rest.length ≤ n := by simp at h; omega
        have ihr := ih rest (some c3) hlen
        simp only [Bool.and_eq_true, and_assoc] at hm
        obtain ⟨h1, h2, h3, h4, h5⟩ := hm
        rcases rest with _ | ⟨d, r⟩
        · rfl
        · have hdw : isWordChar d = false := by
            simpa [nanBdryA] using h5
          have hdN : isN ci d = false := not_isN_of_wc_false ci d hdw
          obtain ⟨t', ht'⟩ := stripNan_cons_of_isN_false ci (some c3) d r hdN
          rw [ht', hasNan_prevIrrel ci p (some c3) d t' hdN, ← ht']
          exact ihr
      · have hm' : (isN ci c1 && isA ci c2 && isN ci c3 && nanBdryB p && nanBdryA rest)
            = false := Bool.eq_false_iff.mpr hm
        have hstep : stripNanAux ci p (c1 :: c2 :: c3 :: rest)
            = c1 :: stripNanAux ci (some c1) (c2 :: c3 :: rest) := by
          simp [stripNanAux, hm']
        rw [hstep]
        have hlen2 : (c2 :: c3 :: rest).length ≤ n := by simp at h ⊢; omega
        have ihS := ih (c2 :: c3 :: rest) (some c1) hlen2
        rcases hS : stripNanAux ci (some c1) (c2 :: c3 :: rest) with _ | ⟨d2, _ | ⟨d3, ds⟩⟩
        · rfl
        · rfl
        · rw [hS] at ihS
          simp only [hasNanAux, ihS, Bool.or_false]
          by_contra hcond
          rw [Bool.not_eq_false] at hcond
          simp only [Bool.and_eq_true, and_assoc] at hcond
          obtain ⟨hc1, hcd2, hcd3, hcp, hcds⟩ := hcond
          have hnb1 : nanBdryB (some c1) = false := by
            simp [nanBdryB, wc_of_isN ci c1 hc1]
          rcases rest with _ | ⟨r, rr⟩
          · have h23 : ([c2, c3] : List Char) = d2 :: d3 :: ds := by
              have hrfl : stripNanAux ci (some c1) [c2, c3] = [c2, c3] := rfl
              rw [← hrfl]; exact hS
            injection h23 with e2 h23'
            injection h23' with e3 e0
            rw [← e2] at hcd2
            rw [← e3] at hcd3
            simp [hc1, hcd2, hcd3, hcp, nanBdryA] at hm'
          · have hS2 : stripNanAux ci (some c1) (c2 :: c3 :: r :: rr)
                = c2 :: stripNanAux ci (some c2) (c3 :: r :: rr) := by
              simp [stripNanAux, hnb1]
            rw [hS2] at hS
            injection hS with e2 hS'
            rw [← e2] at hcd2
            have hnb2 : nanBdryB (some c2) = false := by
              simp [nanBdryB, wc_of_isA ci c2 hcd2]
            rcases rr with _ | ⟨s, ss⟩
            · have hS3 : stripNanAux ci (some c2) [c3, r] = [c3, r] := rfl
              rw [hS3] at hS'
              injection hS' with e3 e0
              rw [← e3] at hcd3
              rw [← e0] at hcds
              have hwr : isWordChar r = false := by simpa [nanBdryA] using hcds
              simp [hc1, hcd2, hcd3, hcp, nanBdryA, hwr] at hm'
            · have hS3 : stripNanAux ci (some c2) (c3 :: r :: s :: ss)
                  = c3 :: stripNanAux ci (some c3) (r :: s :: ss) := by
                simp [stripNanAux, hnb2]
              rw [hS3] at hS'
              injection hS' with e3 hS2'
              rw [← e3] at hcd3
              have hnb3 : nanBdryB (some c3) = false := by
                simp [nanBdryB, wc_of_isN ci c3 hcd3]
              have hwr : isWordChar r = true := by
                by_contra hwr'
                have hwr2 : isWordChar r = false := Bool.eq_false_iff.mpr hwr'
                simp [hc1, hcd2, hcd3, hcp, nanBdryA, hwr2] at hm'
              have hh := stripNan_head_nb ci (some c3) (r :: s :: ss) hnb3
              rw [hS2'] at hh
              rcases ds with _ | ⟨x, xs⟩
              · simp at hh
              · simp only [List.head?_cons, Option.some.injEq] at hh
                have hxw : isWordChar x = false := by simpa [nanBdryA] using hcds
                rw [hh, hwr] at hxw
                exact absurd hxw (by simp)

/-- No word-bounded match of nan anywhere in `stripNanAux`'s output. -/
theorem stripNan_noNan (ci : Bool) (l : List Char) (p : Option Char) :
    hasNanAux ci p (stripNanAux ci p l) = false :=
  stripNan_noNan_bounded ci l.length l p (Nat.le_refl _)

/-- When the string has no word-bounded match of nan, the removal pass
leaves it unchanged. -/
theorem stripNan_id_of_noNan (ci : Bool) :
    ∀ l p, hasNanAux ci p l = false → stripNanAux ci p l = l := by
  intro l
  induction l with
  | nil => intro p h; rfl
  | cons c t ih =>
    intro p h
    rcases t with _ | ⟨d, _ | ⟨e, r⟩⟩
    · rfl
    · rfl
    · rw [hasNanAux] at h
      simp only [Bool.or_eq_false_iff] at h
      obtain ⟨h1, h2⟩ := h
      simp [stripNanAux, h1, ih (some c) h2]

theorem bdryL_cons (p : Option Char) (c : Char) (u : List Char) :
    bdryL p (c :: u) = bdryL (some c) u := by
  rcases u with _ | ⟨d, u'⟩
  · rfl
  · unfold bdryL
    rw [List.getLast?_cons_cons]
    cases hg : (d :: u').getLast? with
    | none => exact absurd hg (by simp)
    | some x => rfl

theorem bdryL_eq_of_nb (p q : Option Char) (u : List Char)
    (h : nanBdryB p = nanBdryB q) : bdryL p u = bdryL q u := by
  unfold bdryL
  cases u.getLast? <;> simp [h]

theorem hasNan_cons_tail (ci : Bool) (p : Option Char) (d : Char) (t : List Char)
    (h : hasNanAux ci (some d) t = true) : hasNanAux ci p (d :: t) = true := by
  rcases t with _ | ⟨a, _ | ⟨b, r⟩⟩
  · simp [hasNanAux] at h
  · simp [hasNanAux] at h
  · simp only [hasNanAux]
    rw [h, Bool.or_true]

theorem hasNan_split_of (ci : Bool) :
    ∀ l p, hasNanAux ci p l = true →
      ∃ u c1 c2 c3 v, l = u ++ c1 :: c2 :: c3 :: v ∧ isN ci c1 = true ∧ isA ci c2 = true
        ∧ isN ci c3 = true ∧ bdryL p u = true ∧ nanBdryA v = true := by
  intro l
  induction l with
  | nil => intro p h; simp [hasNanAux] at h
  | cons c t ih =>
    intro p h
    rcases t with _ | ⟨d, _ | ⟨e, r⟩⟩
    · simp [hasNanAux] at h
    · simp [hasNanAux] at h
    · rw [hasNanAux] at h
      simp only [Bool.or_eq_true] at h
      rcases h with hc | hrec
      · simp only [Bool.and_eq_true, and_assoc] at hc
        obtain ⟨h1, h2, h3, h4, h5⟩ := hc
        exact ⟨[], c, d, e, r, rfl, h1, h2, h3, by simpa [bdryL] using h4, h5⟩
      · obtain ⟨u, c1, c2, c3, v, heq, h1, h2, h3, hb, ha⟩ := ih (some c) hrec
        refine ⟨c :: u, c1, c2, c3, v, by simp [heq], h1, h2, h3, ?_, ha⟩
        rw [bdryL_cons]
        exact hb

theorem hasNan_of_split (ci : Bool) :
    ∀ u l p c1 c2 c3 v, l = u ++ c1 :: c2 :: c3 :: v →
      isN ci c1 = true → isA ci c2 = true → isN ci c3 = true → bdryL p u = true →
      nanBdryA v = true → hasNanAux ci p l = true := by
  intro u
  induction u with
  | nil =>
    intro l p c1 c2 c3 v heq h1 h2 h3 hb ha
    rw [List.nil_append] at heq
    subst heq
    have hp : nanBdryB p = true := by simpa [bdryL] using hb
    rw [hasNanAux]
    simp [h1, h2, h3, hp, ha]
  | cons d u' ih =>
    intro l p c1 c2 c3 v heq h1 h2 h3 hb ha
    rw [List.cons_append] at heq
    subst heq
    rw [bdryL_cons] at hb
    exact hasNan_cons_tail ci p d _ (ih _ (some d) c1 c2 c3 v rfl h1 h2 h3 hb ha)

theorem collapse_word_run :
    ∀ w x v, collapseWsAux false x = w ++ v → (∀ c ∈ w, isWordChar c = true) →
      ∃ v', x = w ++ v' ∧ (nanBdryA v = true → nanBdryA v' = true) := by
  intro w
  induction w with
  | nil =>
    intro x v heq hw
    rw [List.nil_append] at heq
    refine ⟨x, rfl, ?_⟩
    intro hv
    rcases x with _ | ⟨c, r⟩
    · rfl
    · by_cases hc : isSpace c = true
      · simp [nanBdryA, wc_false_of_sp c hc]
      · have hstep : collapseWsAux false (c :: r) = c :: collapseWsAux false r := by
          simp [collapseWsAux, hc]
        rw [hstep] at heq
        rw [← heq] at hv
        simpa [nanBdryA] using hv
  | cons a w' ih =>
    intro x v heq hw
    have haw : isWordChar a = true := hw a (List.mem_cons_self a w')
    rcases x with _ | ⟨c, r⟩
    · simp [collapseWsAux] at heq
    · by_cases hc : isSpace c = true
      · have hstep : collapseWsAux false (c :: r) = ' ' :: collapseWsAux true r := by
          simp [collapseWsAux, hc]
        rw [hstep, List.cons_append] at heq
        injection heq with e1 _
        rw [← e1] at haw
        exact absurd haw (by decide)
      · have hstep : collapseWsAux false (c :: r) = c :: collapseWsAux false r := by
          simp [collapseWsAux, hc]
        rw [hstep, List.cons_append] at heq
        injection heq with e1 heq'
        obtain ⟨v', hr, htr⟩ := ih r v heq' (fun ch hm => hw ch (List.mem_cons_of_mem a hm))
        exact ⟨v', by rw [e1, hr, List.cons_append], htr⟩

theorem collapse_split :
    ∀ x b p u w v, collapseWsAux b x = u ++ w ++ v →
      (∀ c ∈ w, isWordChar c = true) → w ≠ [] → bdryL p u = true →
      (b = true → nanBdryB p = true) →
      ∃ u' v', x = u' ++ w ++ v' ∧ bdryL p u' = true
        ∧ (nanBdryA v = true → nanBdryA v' = true) := by
  intro x
  induction x with
  | nil =>
    intro b p u w v heq hw hne hb hbp
    rw [show collapseWsAux b [] = [] from by cases b <;> rfl] at heq
    rcases List.append_eq_nil.mp heq.symm with ⟨huw, -⟩
    rcases List.append_eq_nil.mp huw with ⟨-, hwnil⟩
    exact absurd hwnil hne
  | cons c r ih =>
    intro b p u w v heq hw hne hb hbp
    by_cases hc : isSpace c = true
    · cases b with
      | true =>
        have hstep : collapseWsAux true (c :: r) = collapseWsAux true r := by
          simp [collapseWsAux, hc]
        rw [hstep] at heq
        obtain ⟨u'', v'', hx, hbu, htr⟩ := ih true p u w v heq hw hne hb hbp
        refine ⟨c :: u'', v'', by simp [hx], ?_, htr⟩
        rw [bdryL_cons]
        have h1 : nanBdryB (some c) = true := by
          simp [nanBdryB, wc_false_of_sp c hc]
        rw [bdryL_eq_of_nb (some c) p u'' (by rw [h1, hbp rfl])]
        exact hbu
      | false =>
        have hstep : collapseWsAux false (c :: r) = ' ' :: collapseWsAux true r := by
          simp [collapseWsAux, hc]
        rw [hstep] at heq
        rcases u with _ | ⟨d, u'⟩
        · rw [List.nil_append] at heq
          rcases w with _ | ⟨a, w'⟩
          · exact absurd rfl hne
          · rw [List.cons_append] at heq
            injection heq with e1 _
            have haw := hw a (List.mem_cons_self a w')
            rw [← e1] at haw
            exact absurd haw (by decide)
        · simp only [List.cons_append] at heq
          injection heq with e1 heq'
          have hnbc : nanBdryB (some c) = true := by
            simp [nanBdryB, wc_false_of_sp c hc]
          have hnbd : nanBdryB (some d) = true := by
            rw [← e1]; decide
          have hb' : bdryL (some c) u' = true := by
            rw [bdryL_cons] at hb
            rw [bdryL_eq_of_nb (some c) (some d) u' (hnbc.trans hnbd.symm)]
            exact hb
          obtain ⟨u'', v'', hx, hbu, htr⟩ :=
            ih true (some c) u' w v heq' hw hne hb' (fun _ => hnbc)
          refine ⟨c :: u'', v'', by simp [hx], ?_, htr⟩
          rw [bdryL_cons]
          exact hbu
    · have hstep : collapseWsAux b (c :: r) = c :: collapseWsAux false r := by
        cases b <;> simp [collapseWsAux, hc]
      rw [hstep] at heq
      rcases u with _ | ⟨d, u'⟩
      · rw [List.nil_append] at heq
        rcases w with _ | ⟨a, w'⟩
        · exact absurd rfl hne
        · rw [List.cons_append] at heq
          injection heq with e1 heq'
          obtain ⟨v', hr, htr⟩ :=
            collapse_word_run w' r v heq' (fun ch hm => hw ch (List.mem_cons_of_mem a hm))
          refine ⟨[], v', ?_, hb, htr⟩
          rw [e1, hr]
          simp
      · simp only [List.cons_append] at heq
        injection heq with e1 heq'
        have hb' : bdryL (some c) u' = true := by
          rw [bdryL_cons] at hb
          rw [e1]
          exact hb
        obtain ⟨u'', v'', hx, hbu, htr⟩ :=
          ih false (some c) u' w v heq' hw hne hb' (by simp)
        refine ⟨c :: u'', v'', by simp [hx], ?_, htr⟩
        rw [bdryL_cons]
        exact hbu

theorem collapse_noNan_rev (ci : Bool) (x : List Char) (p : Option Char)
    (h : hasNanAux ci p (collapseWs x) = true) : hasNanAux ci p x = true := by
  obtain ⟨u, c1, c2, c3, v, heq, h1, h2, h3, hb, ha⟩ := hasNan_split_of ci (collapseWs x) p h
  have hw : ∀ c ∈ [c1, c2, c3], isWordChar c = true := by
    intro c hc
    simp only [List.mem_cons, List.not_mem_nil, or_false] at hc
    rcases hc with rfl | rfl | rfl
    · exact wc_of_isN ci c h1
    · exact wc_of_isA ci c h2
    · exact wc_of_isN ci c h3
  obtain ⟨u', v', hx, hbu, htr⟩ :=
    collapse_split x false p u [c1, c2, c3] v (by simpa using heq) hw (by simp) hb (by simp)
  exact hasNan_of_split ci u' x p c1 c2 c3 v' (by simpa using hx) h1 h2 h3 hbu (htr ha)

theorem collapse_true_head (l : List Char) (d : Char)
    (h : (collapseWsAux true l).head? = some d) : isSpace d = false := by
  induction l with
  | nil => simp [collapseWsAux] at h
  | cons c r ih =>
    by_cases hc : isSpace c = true
    · rw [show collapseWsAux true (c :: r) = collapseWsAux true r from by
        simp [collapseWsAux, hc]] at h
      exact ih h
    · rw [show collapseWsAux true (c :: r) = c :: collapseWsAux false r from by
        simp [collapseWsAux, hc]] at h
      simp only [List.head?_cons, Option.some.injEq] at h
      rw [← h]
      exact Bool.eq_false_iff.mpr hc

theorem noDbl_cons_tail (c : Char) (t : List Char) (h : noDbl (c :: t) = true) :
    noDbl t = true := by
  rcases t with _ | ⟨d, r⟩
  · rfl
  · rw [noDbl] at h
    simp only [Bool.and_eq_true] at h
    exact h.2

theorem collapse_noDbl : ∀ (l : List Char) (b : Bool), noDbl (collapseWsAux b l) = true := by
  intro l
  induction l with
  | nil => intro b; rfl
  | cons c r ih =>
    intro b
    by_cases hc : isSpace c = true
    · cases b with
      | true =>
        rw [show collapseWsAux true (c :: r) = collapseWsAux true r from by
          simp [collapseWsAux, hc]]
        exact ih true
      | false =>
        rw [show collapseWsAux false (c :: r) = ' ' :: collapseWsAux true r from by
          simp [collapseWsAux, hc]]
        rcases hX : collapseWsAux true r with _ | ⟨y, ys⟩
        · rfl
        · have hy : isSpace y = false := collapse_true_head r y (by rw [hX]; rfl)
          rw [noDbl]
          have := ih true
          rw [hX] at this
          simp [hy, this]
    · rw [show collapseWsAux b (c :: r) = c :: collapseWsAux false r from by
        cases b <;> simp [collapseWsAux, hc]]
      rcases hX : collapseWsAux false r with _ | ⟨y, ys⟩
      · rfl
      · rw [noDbl]
        have := ih false
        rw [hX] at this
        simp [Bool.eq_false_iff.mpr hc, this]

theorem collapse_allBlank : ∀ (l : List Char) (b : Bool),
    allBlank (collapseWsAux b l) = true := by
  intro l
  induction l with
  | nil => intro b; rfl
  | cons c r ih =>
    intro b
    by_cases hc : isSpace c = true
    · cases b with
      | true =>
        rw [show collapseWsAux true (c :: r) = collapseWsAux true r from by
          simp [collapseWsAux, hc]]
        exact ih true
      | false =>
        rw [show collapseWsAux false (c :: r) = ' ' :: collapseWsAux true r from by
          simp [collapseWsAux, hc]]
        simp only [allBlank] at ih ⊢
        have h2 : ((collapseWsAux true r).all fun c => !isSpace c || decide (c = ' '))
            = true := ih true
        rw [List.all_cons, h2, Bool.and_true]
        decide
    · rw [show collapseWsAux b (c :: r) = c :: collapseWsAux false r from by
        cases b <;> simp [collapseWsAux, hc]]
      simp only [allBlank] at ih ⊢
      have h2 : ((collapseWsAux false r).all fun c => !isSpace c || decide (c = ' '))
          = true := ih false
      rw [List.all_cons, h2, Bool.and_true]
      simp [Bool.eq_false_iff.mpr hc]

theorem allBlank_cons_tail (c : Char) (t : List Char) (h : allBlank (c :: t) = true) :
    allBlank t = true := by
  simp only [allBlank, List.all_cons, Bool.and_eq_true] at h ⊢
  exact h.2

theorem allBlank_head (c : Char) (t : List Char) (h : allBlank (c :: t) = true)
    (hc : isSpace c = true) : c = ' ' := by
  simp only [allBlank, List.all_cons, Bool.and_eq_true, Bool.or_eq_true] at h
  rcases h.1 with h1 | h1
  · rw [hc] at h1; simp at h1
  · exact decide_eq_true_eq.mp h1

theorem noDbl_dropWhile (q : Char → Bool) :
    ∀ l, noDbl l = true → noDbl (l.dropWhile q) = true := by
  intro l
  induction l with
  | nil => intro h; exact h
  | cons c r ih =>
    intro h
    rw [List.dropWhile_cons]
    by_cases hq : q c = true
    · simp only [hq, if_true]
      exact ih (noDbl_cons_tail c r h)
    · simp only [hq]
      simpa using h

theorem mem_dropTrailing : ∀ (l : List Char) (c : Char), c ∈ dropTrailingWs l → c ∈ l := by
  intro l
  induction l with
  | nil => intro c h; exact h
  | cons d r ih =>
    intro c h
    rw [dropTrailingWs] at h
    by_cases hg : ((dropTrailingWs r).isEmpty && isSpace d) = true
    · rw [if_pos hg] at h
      exact absurd h (List.not_mem_nil c)
    · rw [if_neg hg] at h
      rcases List.mem_cons.mp h with h' | h'
      · exact h' ▸ List.mem_cons_self d r
      · exact List.mem_cons_of_mem d (ih c h')

theorem head?_dropTrailing (l : List Char) :
    dropTrailingWs l = [] ∨ (dropTrailingWs l).head? = l.head? := by
  rcases l with _ | ⟨c, r⟩
  · exact Or.inl rfl
  · rw [dropTrailingWs]
    by_cases hg : ((dropTrailingWs r).isEmpty && isSpace c) = true
    · rw [if_pos hg]; exact Or.inl rfl
    · rw [if_neg hg]; exact Or.inr rfl

theorem dropTrailing_noDbl : ∀ l : List Char, noDbl l = true →
    noDbl (dropTrailingWs l) = true := by
  intro l
  induction l with
  | nil => intro h; exact h
  | cons c r ih =>
    intro h
    rw [dropTrailingWs]
    by_cases hg : ((dropTrailingWs r).isEmpty && isSpace c) = true
    · rw [if_pos hg]; rfl
    · rw [if_neg hg]
      have hr := ih (noDbl_cons_tail c r h)
      rcases hX : dropTrailingWs r with _ | ⟨y, ys⟩
      · rfl
      · rcases head?_dropTrailing r with hr0 | hr0
        · rw [hX] at hr0; exact absurd hr0 (by simp)
        · rw [hX] at hr hr0
          rcases r with _ | ⟨z, zs⟩
          · simp [dropTrailingWs] at hX
          · simp only [List.head?_cons, Option.some.injEq] at hr0
            rw [noDbl]
            rw [noDbl] at h
            simp only [Bool.and_eq_true] at h
            rw [← hr0] at h
            simp [h.1, hr]

theorem dropTrailing_last (l : List Char) (d : Char)
    (h : (dropTrailingWs l).getLast? = some d) : isSpace d = false := by
  induction l with
  | nil => simp [dropTrailingWs] at h
  | cons c r ih =>
    rw [dropTrailingWs] at h
    by_cases hg : ((dropTrailingWs r).isEmpty && isSpace c) = true
    · rw [if_pos hg] at h
      simp at h
    · rw [if_neg hg] at h
      rcases hX : dropTrailingWs r with _ | ⟨y, ys⟩
      · rw [hX] at h
        simp only [List.getLast?_singleton, Option.some.injEq] at h
        rw [hX] at hg
        simp only [List.isEmpty_nil, Bool.true_and] at hg
        rw [← h]
        exact Bool.eq_false_iff.mpr hg
      · rw [hX, List.getLast?_cons_cons] at h
        rw [← hX] at h
        exact ih h

theorem dropTrailing_decomp : ∀ l : List Char,
    ∃ b, l = dropTrailingWs l ++ b ∧ ∀ c ∈ b, isSpace c = true := by
  intro l
  induction l with
  | nil => exact ⟨[], rfl, by simp⟩
  | cons c r ih =>
    obtain ⟨b, hb, hsp⟩ := ih
    rw [dropTrailingWs]
    by_cases hg : ((dropTrailingWs r).isEmpty && isSpace c) = true
    · rw [if_pos hg]
      simp only [Bool.and_eq_true, List.isEmpty_iff] at hg
      refine ⟨c :: r, rfl, ?_⟩
      intro x hx
      rcases List.mem_cons.mp hx with h' | h'
      · rw [h']; exact hg.2
      · rw [hg.1] at hb
        rw [List.nil_append] at hb
        exact hsp x (hb ▸ h')
    · rw [if_neg hg]
      exact ⟨b, by rw [List.cons_append, ← hb], hsp⟩

theorem dropWhile_head_not (q : Char → Bool) :
    ∀ (l : List Char) (d : Char), (l.dropWhile q).head? = some d → q d = false := by
  intro l
  induction l with
  | nil => intro d h; simp at h
  | cons c r ih =>
    intro d h
    rw [List.dropWhile_cons] at h
    by_cases hq : q c = true
    · rw [if_pos hq] at h
      exact ih d h
    · rw [if_neg hq] at h
      simp only [List.head?_cons, Option.some.injEq] at h
      rw [← h]
      exact Bool.eq_false_iff.mpr hq

theorem bdryL_append_sp : ∀ (a : List Char) (p : Option Char) (b : List Char),
    (∀ c ∈ a, isSpace c = true) → nanBdryB p = true →
    bdryL p (a ++ b) = bdryL p b := by
  intro a
  induction a with
  | nil => intro p b _ _; rfl
  | cons d a' ih =>
    intro p b hsp hp
    rw [List.cons_append, bdryL_cons]
    have hd : nanBdryB (some d) = true := by
      simp [nanBdryB, wc_false_of_sp d (hsp d (List.mem_cons_self d a'))]
    rw [ih (some d) b (fun c hc => hsp c (List.mem_cons_of_mem d hc)) hd]
    exact bdryL_eq_of_nb (some d) p b (hd.trans hp.symm)

theorem nanBdryA_append_sp (v b : List Char) (hv : nanBdryA v = true)
    (hb : ∀ c ∈ b, isSpace c = true) : nanBdryA (v ++ b) = true := by
  rcases v with _ | ⟨d, v'⟩
  · rcases b with _ | ⟨e, b'⟩
    · rfl
    · simp [nanBdryA, wc_false_of_sp e (hb e (List.mem_cons_self e b'))]
  · simpa [nanBdryA] using hv

theorem pyStrip_noNan_rev (ci : Bool) (x : List Char) (p : Option Char)
    (hp : nanBdryB p = true) (h : hasNanAux ci p (pyStrip x) = true) :
    hasNanAux ci p x = true := by
  obtain ⟨u, c1, c2, c3, v, heq, h1, h2, h3, hb, ha⟩ := hasNan_split_of ci _ p h
  obtain ⟨btrail, hbt, hbtsp⟩ := dropTrailing_decomp (x.dropWhile isSpace)
  have hx : x = (x.takeWhile isSpace) ++ (pyStrip x ++ btrail) := by
    have hbt' : x.dropWhile isSpace = pyStrip x ++ btrail := hbt
    have htd : List.takeWhile isSpace x ++ List.dropWhile isSpace x = x := by
      rw [List.takeWhile_append_dropWhile]
    conv_lhs => rw [← htd]
    rw [hbt']
  rw [heq] at hx
  apply hasNan_of_split ci (x.takeWhile isSpace ++ u) x p c1 c2 c3 (v ++ btrail) ?_ h1 h2 h3 ?_ ?_
  · conv_lhs => rw [hx]
    simp [List.append_assoc]
  · rw [bdryL_append_sp _ p u (fun c hc => List.mem_takeWhile_imp hc) hp]
    exact hb
  · exact nanBdryA_append_sp v btrail ha hbtsp

theorem mem_dropWhile_mem (q : Char → Bool) :
    ∀ (l : List Char) (c : Char), c ∈ l.dropWhile q → c ∈ l := by
  intro l
  induction l with
  | nil => intro c h; exact h
  | cons d r ih =>
    intro c h
    rw [List.dropWhile_cons] at h
    by_cases hq : q d = true
    · rw [if_pos hq] at h
      exact List.mem_cons_of_mem d (ih c h)
    · rw [if_neg hq] at h
      exact h

theorem dropWhile_id_of_head (l : List Char)
    (hh : ∀ d, l.head? = some d → isSpace d = false) : l.dropWhile isSpace = l := by
  rcases l with _ | ⟨c, r⟩
  · rfl
  · rw [List.dropWhile_cons, if_neg (by simp [hh c rfl])]

theorem dropTrailing_id_of_last : ∀ l : List Char,
    (∀ d, l.getLast? = some d → isSpace d = false) → dropTrailingWs l = l := by
  intro l
  induction l with
  | nil => intro _; rfl
  | cons c r ih =>
    intro hl
    rcases r with _ | ⟨z, zs⟩
    · have hc : isSpace c = false := hl c rfl
      simp [dropTrailingWs, hc]
    · have hdr : dropTrailingWs (z :: zs) = z :: zs :=
        ih (fun d hd => hl d (by rw [List.getLast?_cons_cons]; exact hd))
      rw [dropTrailingWs, hdr]
      simp

theorem collapse_id : ∀ l : List Char, allBlank l = true → noDbl l = true →
    collapseWsAux false l = l
      ∧ ((∀ d, l.head? = some d → isSpace d = false) → collapseWsAux true l = l) := by
  intro l
  induction l with
  | nil => intro _ _; exact ⟨rfl, fun _ => rfl⟩
  | cons c r ih =>
    intro hab hnd
    obtain ⟨ihf, iht⟩ := ih (allBlank_cons_tail c r hab) (noDbl_cons_tail c r hnd)
    constructor
    · by_cases hc : isSpace c = true
      · have hcsp : c = ' ' := allBlank_head c r hab hc
        rw [show collapseWsAux false (c :: r) = ' ' :: collapseWsAux true r from by
          simp [collapseWsAux, hc]]
        have hhr : ∀ d, r.head? = some d → isSpace d = false := by
          intro d hd
          rcases r with _ | ⟨y, ys⟩
          · simp at hd
          · simp only [List.head?_cons, Option.some.injEq] at hd
            rw [noDbl] at hnd
            simp only [Bool.and_eq_true] at hnd
            rw [← hd]
            have h1 := hnd.1
            rw [hc] at h1
            simpa using h1
        rw [iht hhr, hcsp]
      · rw [show collapseWsAux false (c :: r) = c :: collapseWsAux false r from by
          simp [collapseWsAux, hc]]
        rw [ihf]
    · intro hh
      have hc : isSpace c = false := hh c rfl
      rw [show collapseWsAux true (c :: r) = c :: collapseWsAux false r from by
        simp [collapseWsAux, hc]]
      rw [ihf]

theorem pyStrip_head (x : List Char) :
    ∀ d, (pyStrip x).head? = some d → isSpace d = false := by
  intro d hd
  rcases head?_dropTrailing (x.dropWhile isSpace) with h0 | h0
  · rw [show pyStrip x = dropTrailingWs (x.dropWhile isSpace) from rfl, h0] at hd
    simp at hd
  · exact dropWhile_head_not isSpace x d (by rw [← h0]; exact hd)

theorem pyStrip_last (x : List Char) :
    ∀ d, (pyStrip x).getLast? = some d → isSpace d = false :=
  fun d hd => dropTrailing_last (x.dropWhile isSpace) d hd

theorem pyStrip_fixed (z : List Char)
    (hh : ∀ d, z.head? = some d → isSpace d = false)
    (hl : ∀ d, z.getLast? = some d → isSpace d = false) : pyStrip z = z := by
  show dropTrailingWs (z.dropWhile isSpace) = z
  rw [dropWhile_id_of_head z hh]
  exact dropTrailing_id_of_last z hl

theorem noDbl_pyStrip (m : List Char) (h : noDbl m = true) : noDbl (pyStrip m) = true :=
  dropTrailing_noDbl _ (noDbl_dropWhile isSpace m h)

theorem allBlank_pyStrip (m : List Char) (h : allBlank m = true) :
    allBlank (pyStrip m) = true := by
  simp only [allBlank, List.all_eq_true] at h ⊢
  intro c hc
  exact h c (mem_dropWhile_mem isSpace m c (mem_dropTrailing _ c hc))

theorem cleanStdText_noNan (s : List Char) :
    hasNanAux true none (cleanStdText s) = false := by
  cases h : hasNanAux true none (cleanStdText s) with
  | false => rfl
  | true =>
    exfalso
    have h1 := pyStrip_noNan_rev true (collapseWs (stripNanAux true none s)) none rfl h
    have h2 := collapse_noNan_rev true (stripNanAux true none s) none h1
    rw [stripNan_noNan true s none] at h2
    exact absurd h2 (by simp)

theorem cleanStdText_idem (s : List Char) :
    cleanStdText (cleanStdText s) = cleanStdText s := by
  have h1 : stripNanAux true none (cleanStdText s) = cleanStdText s :=
    stripNan_id_of_noNan true (cleanStdText s) none (cleanStdText_noNan s)
  have hndbl : noDbl (cleanStdText s) = true :=
    noDbl_pyStrip _ (collapse_noDbl (stripNanAux true none s) false)
  have hab : allBlank (cleanStdText s) = true :=
    allBlank_pyStrip _ (collapse_allBlank (stripNanAux true none s) false)
  have hcol : collapseWs (cleanStdText s) = cleanStdText s :=
    (collapse_id (cleanStdText s) hab hndbl).1
  have hstrip : pyStrip (cleanStdText s) = cleanStdText s :=
    pyStrip_fixed _ (pyStrip_head _) (pyStrip_last _)
  show pyStrip (collapseWs (stripNanAux true none (cleanStdText s))) = cleanStdText s
  rw [h1, hcol, hstrip]

theorem clean_std_elem : ∀ (l : List (List Char)) t, t ∈ clean_standard_options l →
    t.isEmpty = false ∧ cleanStdText t = t := by
  intro l
  induction l with
  | nil => intro t ht; simp [clean_standard_options] at ht
  | cons s rest ih =>
    intro t ht
    rw [clean_standard_options] at ht
    by_cases h1 : s.isEmpty = true
    · rw [if_pos h1] at ht; exact ih t ht
    · rw [if_neg h1] at ht
      by_cases h2 : (cleanStdText s).isEmpty = true
      · rw [if_pos h2] at ht; exact ih t ht
      · rw [if_neg h2] at ht
        rcases List.mem_cons.mp ht with h3 | h3
        · subst h3
          exact ⟨Bool.eq_false_iff.mpr h2, cleanStdText_idem s⟩
        · exact ih t h3

theorem clean_std_fixed : ∀ m : List (List Char),
    (∀ t ∈ m, t.isEmpty = false ∧ cleanStdText t = t) → clean_standard_options m = m := by
  intro m
  induction m with
  | nil => intro _; rfl
  | cons s rest ih =>
    intro h
    obtain ⟨hne, hfix⟩ := h s (List.mem_cons_self s rest)
    have ihr := ih (fun t ht => h t (List.mem_cons_of_mem s ht))
    simp [clean_standard_options, hne, hfix, ihr]

/-! The claims. -/

/-- Claim C1, counterexample: the cleaning step of group_optional_options
does NOT behave as described (case-insensitive, not word-bounded): on the
single item with description NAN the source keeps the item unchanged
(its regex has no IGNORECASE flag and is word-bounded), while the claimed
cleaning would drop it. -/
theorem c1_cleaning_counterexample :
    cleanPass [Item.mk ("NAN".data) 1] ≠ claimC1Clean [Item.mk ("NAN".data) 1] := by
  decide

/-- Claim C1, amended: in the cleaning step of group_optional_options the
token nan is stripped case-SENSITIVELY and only at word boundaries, the
result is trimmed of whitespace, items whose cleaned description becomes
empty are dropped, and the relative order of the remaining items is
preserved. -/
theorem c1_cleaning_amended (l : List Item) : cleanPass l = amendedC1Clean l := by
  rw [cleanPass, cleanLoop_snd, amendedC1Clean]
  rfl

/-- Claim C2, counterexample: group_optional_options is not free of side
effects on its input: on the single item with description " spindle" the
item's description is mutated in place (to "spindle") by line 31, so after
the call the input list is changed. -/
theorem c2_mutation_counterexample :
    postState [Item.mk (" spindle".data) 1] ≠ [Item.mk (" spindle".data) 1] := by
  decide

/-- Claim C2, amended: group_optional_options keeps the length and order
of the input list and every item's price, but overwrites each item's
description in place with its cleaned value (word-bounded case-sensitive
nan removal plus trim), even for items that are dropped from the returned
buckets. -/
theorem c2_poststate_amended (l : List Item) :
    postState l = l.map (fun it => Item.mk (cleanDesc it.description) it.price)
      ∧ (postState l).map Item.price = l.map Item.price
      ∧ (postState l).length = l.length := by
  refine ⟨?_, ?_, ?_⟩
  · rw [postState, cleanLoop_fst]; rfl
  · rw [postState, cleanLoop_fst]; simp [mutateItem]
  · rw [postState, cleanLoop_fst]; simp

/-- Claim C3: conservation invariant of group_optional_options: the items
of the returned buckets are, up to bucket-internal regrouping, exactly the
cleaned items minus the one possibly extracted as base price (so none is
duplicated or lost), and the sum of the bucket sizes plus one for an
extracted base price equals the number of cleaned non-empty input items. -/
theorem c3_conservation (l : List Item) :
    (bucketsList (group_optional_options l).1).Perm (remainingAfterBase l)
      ∧ bucketsSize (group_optional_options l).1
          + (if baseExtracted l = true then 1 else 0) = (cleanPass l).length := by
  cases h : cleanPass l with
  | nil =>
    rw [group_eq_of_nil l h]
    constructor
    · simp [remainingAfterBase, h, emptyBuckets, bucketsList]
    · simp [baseExtracted, h, emptyBuckets, bucketsSize]
  | cons first rest =>
    rw [group_eq_of_cons l first rest h, remaining_eq_of_cons l first rest h,
      baseExtracted_eq_of_cons l first rest h]
    by_cases hb : baseCond first = true
    · rw [if_pos hb, if_pos hb]
      refine ⟨categorize_perm rest, ?_⟩
      rw [bucketsSize_eq]
      simp [(categorize_perm rest).length_eq, hb]
    · rw [if_neg hb, if_neg hb]
      refine ⟨categorize_perm (first :: rest), ?_⟩
      rw [bucketsSize_eq]
      simp [(categorize_perm (first :: rest)).length_eq, hb]

/-- Claim C4: the first cleaned item (and only it) is extracted as base
price exactly when its lowercased description contains "base price" or
"model", or its price exceeds 100000 and its description has fewer than 3
whitespace-separated words; on extraction the returned price is that
item's price and the item is removed, otherwise the returned extracted
base price is 0 and all cleaned items are categorized. -/
theorem c4_base_extraction (l : List Item) :
    (∀ first rest, cleanPass l = first :: rest →
      (specC4Cond first → group_optional_options l = (categorize rest, first.price))
        ∧ (¬ specC4Cond first →
            group_optional_options l = (categorize (first :: rest), 0)))
      ∧ (cleanPass l = [] → group_optional_options l = (emptyBuckets, 0)) := by
  constructor
  · intro first rest h
    constructor
    · intro hc
      rw [group_eq_of_cons l first rest h, if_pos ((baseCond_iff first).2 hc)]
    · intro hc
      rw [group_eq_of_cons l first rest h,
        if_neg (fun hby => hc ((baseCond_iff first).1 hby))]
  · intro h
    exact group_eq_of_nil l h

/-- Claim C4, witness: the spec test vector {description: "Model XYZ",
price: 150000} followed by a probe item: the first item is extracted as
the base price and only the probe item is categorized. -/
theorem c4_base_extraction_witness :
    group_optional_options [Item.mk ("Model XYZ".data) 150000, Item.mk ("probe kit".data) 5]
      = (categorize [Item.mk ("probe kit".data) 5], 150000) := by
  exact ((c4_base_extraction _).1 (Item.mk ("Model XYZ".data) 150000)
    [Item.mk ("probe kit".data) 5] (by decide)).1 (by decide)

/-- Claim C5: the categorization step assigns every remaining cleaned item
to exactly the bucket given by the fixed priority order of
case-insensitive substring tests (spindle; probe or renishaw; coolant;
table or pallet; tool with storage, magazine or changer; control; other as
fallback), first match winning; in particular a description containing
both "spindle" and "tool storage magazine" goes to Spindle Options. -/
theorem c5_categorization :
    (∀ m, categorize m = specCategorize m)
      ∧ (∀ it, pickCat it = specPickCat it)
      ∧ pickCat (Item.mk ("tool storage magazine with spindle".data) 0) = Cat.spindle := by
  refine ⟨categorize_eq_spec, pickCat_eq_spec, by decide⟩

/-- Claim C6: the discount resolution evaluates exactly one branch, in the
priority order desired final price, percent discount, flat discount,
catalog default; on the spec vector (base 100000, desired 90000, percent
50, flat 10000) the desired-price branch wins and the discount is 10000. -/
theorem c6_discount_priority :
    (∀ b dp pc fl cd : ℚ,
      (0 < dp → resolveDiscount b dp pc fl cd = max 0 (b - dp))
        ∧ (¬ 0 < dp → 0 < pc → resolveDiscount b dp pc fl cd = pc / 100 * b)
        ∧ (¬ 0 < dp → ¬ 0 < pc → 0 < fl → resolveDiscount b dp pc fl cd = fl)
        ∧ (¬ 0 < dp → ¬ 0 < pc → ¬ 0 < fl → resolveDiscount b dp pc fl cd = cd))
      ∧ resolveDiscount 100000 90000 50 10000 0 = 10000 := by
  constructor
  · intro b dp pc fl cd
    refine ⟨?_, ?_, ?_, ?_⟩
    · intro h1; simp [resolveDiscount, h1]
    · intro h1 h2; simp [resolveDiscount, h1, h2]
    · intro h1 h2 h3; simp [resolveDiscount, h1, h2, h3]
    · intro h1 h2 h3; simp [resolveDiscount, h1, h2, h3]
  · show resolveDiscount 100000 90000 50 10000 0 = 10000
    rw [resolveDiscount, if_pos (by norm_num)]
    rw [max_eq_right (by norm_num)]
    norm_num

/-- Claim C6, witness: each branch of the resolver applied at concrete
inputs. -/
theorem c6_discount_priority_witness :
    resolveDiscount 100 90 50 10 7 = max 0 (100 - 90)
      ∧ resolveDiscount 100 0 50 10 7 = 50 / 100 * 100
      ∧ resolveDiscount 100 0 0 10 7 = 10
      ∧ resolveDiscount 100 0 0 0 7 = 7 := by
  refine ⟨((c6_discount_priority.1 100 90 50 10 7).1 (by decide)),
    ((c6_discount_priority.1 100 0 50 10 7).2.1 (by decide) (by decide)),
    ((c6_discount_priority.1 100 0 0 10 7).2.2.1 (by decide) (by decide) (by decide)),
    ((c6_discount_priority.1 100 0 0 0 7).2.2.2 (by decide) (by decide) (by decide))⟩

/-- Claim C7: the final quoted price equals base_price minus the resolved
discount plus the sum of the selected optional items' prices; on the spec
vector (base 200000, discount 0, upgrades 5000 and 3000) it is 208000. -/
theorem c7_final_price :
    (∀ (b d : ℚ) (sel : List Item),
      custom_price b d sel = b - d + (sel.map Item.price).sum)
      ∧ custom_price 200000 0
          [Item.mk ("chip conveyor".data) 5000, Item.mk ("4th axis".data) 3000] = 208000 := by
  constructor
  · intro b d sel
    exact foldl_add_price sel (b - d)
  · rw [custom_price]
    simp only [List.foldl_cons, List.foldl_nil]
    norm_num

/-- Claim C8: clean_standard_options is idempotent: applying it to its own
output yields that output again, for every input list. -/
theorem c8_normalizer_idempotent (l : List (List Char)) :
    clean_standard_options (clean_standard_options l) = clean_standard_options l := by
  apply clean_std_fixed
  intro t ht
  exact clean_std_elem l t ht

/-- Claim C9: clean_standard_options removes the token nan case-insensitively
but only as a whole word: on the spec vector the inner nan of banana is kept
while the standalone nan entries are removed; mixed-case NaN standing alone
is removed while NAN inside BaNANa is kept; and in general a string without
any word-bounded occurrence of nan passes the removal step unchanged. -/
theorem c9_word_boundary :
    clean_standard_options [("banana".data), ("nan".data), ("foo nan bar".data)]
        = [("banana".data), ("foo bar".data)]
      ∧ clean_standard_options [("BaNANa".data), ("NaN".data)] = [("BaNANa".data)]
      ∧ (∀ (s : List Char) (p : Option Char), hasNanAux true p s = false →
          stripNanAux true p s = s) := by
  refine ⟨by decide, by decide, fun s p h => stripNan_id_of_noNan true s p h⟩

/-- Claim C9, witness: the string banana has no word-bounded occurrence of
nan, and the removal pass keeps it unchanged. -/
theorem c9_word_boundary_witness :
    hasNanAux true none ("banana".data) = false
      ∧ stripNanAux true none ("banana".data) = "banana".data := by
  exact ⟨by decide, c9_word_boundary.2.2 ("banana".data) none (by decide)⟩

/-- Claim C10: when the first cleaned item qualifies as base price but its
price is 0, group_optional_options removes it from every bucket yet
returns extracted base price 0, indistinguishable from the no-base-price
sentinel, so the caller of line 114 falls back to the catalog base price. -/
theorem c10_zero_base_sentinel (l : List Item) (first : Item) (rest : List Item)
    (catalog : ℚ) (h : cleanPass l = first :: rest) (hb : baseCond first = true)
    (hp : first.price = 0) :
    group_optional_options l = (categorize rest, 0)
      ∧ basePriceSelect (group_optional_options l).2 catalog = catalog := by
  have hg : group_optional_options l = (categorize rest, 0) := by
    rw [group_eq_of_cons l first rest h, if_pos hb, hp]
  refine ⟨hg, ?_⟩
  rw [hg]
  show basePriceSelect 0 catalog = catalog
  rw [basePriceSelect, if_neg (by norm_num)]

/-- Claim C10, witness: the item {description: "model A", price: 0}
followed by a coolant item: the model item is dropped, the extracted base
price is the sentinel 0, and the caller keeps the catalog price 555. -/
theorem c10_zero_base_sentinel_witness :
    group_optional_options [Item.mk ("model A".data) 0, Item.mk ("coolant gun".data) 7]
        = (categorize [Item.mk ("coolant gun".data) 7], 0)
      ∧ basePriceSelect
          (group_optional_options
            [Item.mk ("model A".data) 0, Item.mk ("coolant gun".data) 7]).2 555 = 555 := by
  exact c10_zero_base_sentinel _ (Item.mk ("model A".data) 0)
    [Item.mk ("coolant gun".data) 7] 555 (by decide) (by decide) (by decide)

end QuoteTool
